import Mathlib

/-!
Verification development for `ctftools/xortools.py`, a cryptanalysis toolkit
for repeating-key polyalphabetic substitution ciphers.

Bytes are modelled as natural numbers (every value the source manipulates is
in 0..255), text as `List Char`, and Python floats as exact rationals `ℚ`.
Fallible code (raised exceptions, division by zero, out-of-range indexing)
is modelled with `Option`/`Except`.  Python's `filter` (from `six.moves`) is
lazy in both supported interpreters; where the source's laziness is
observable (the `ok_set` closure in `findkeychars`) the definition embeds
the value the lazy chain actually produces when it is finally consumed, as
explained in the doc comment there.
-/

namespace Xortools

/-- Modelled from the spec: the default `Combiner` of §6 — bitwise XOR,
self-inverse — provided by the external `ctftools.utils.xor` helper, which is
not part of the analysed sources. -/
def xor (c k : ℕ) : ℕ := c ^^^ k

/-- The source's `LETTERS` constant: uppercase then lowercase ASCII letters. -/
def LETTERS : List Char := ((List.range' 65 26) ++ (List.range' 97 26)).map Char.ofNat

/-- The source's `DIGITS` constant: the ten ASCII digits. -/
def DIGITS : List Char := (List.range' 48 10).map Char.ofNat

/-- The source's `PUNCTUATION` constant: the 32 ASCII punctuation characters
(codes 33–47, 58–64, 91–96 and 123–126). -/
def PUNCTUATION : List Char :=
  ((List.range' 33 15) ++ (List.range' 58 7) ++ (List.range' 91 6) ++ (List.range' 123 4)).map
    Char.ofNat

/-- The source's `PRINTABLE` constant: letters, digits, punctuation, and the
whitespace characters space, tab, newline, carriage return, vertical tab and
form feed. -/
def PRINTABLE : List Char :=
  LETTERS ++ DIGITS ++ PUNCTUATION ++ [' ', '\t', '\n', '\r', Char.ofNat 11, Char.ofNat 12]

/-- The source's `english_distribution` table (percentages of each letter in
English text, written as exact rationals: `8.167` is `8167/1000`, etc.). -/
def english_distribution : List (Char × ℚ) :=
  [('a', 8167/1000), ('b', 1492/1000), ('c', 2782/1000), ('d', 4253/1000),
   ('e', 12702/1000), ('f', 2228/1000), ('g', 2015/1000), ('h', 6094/1000),
   ('i', 6966/1000), ('j', 153/1000), ('k', 772/1000), ('l', 4025/1000),
   ('m', 2406/1000), ('n', 6749/1000), ('o', 7507/1000), ('p', 1929/1000),
   ('q', 95/1000), ('r', 5987/1000), ('s', 6327/1000), ('t', 9056/1000),
   ('u', 2758/1000), ('v', 978/1000), ('w', 2360/1000), ('x', 150/1000),
   ('y', 1974/1000), ('z', 74/1000)]

/-- The body of `englishscore`'s character loop (xortools.py lines 73–83):
`0.8`, `0.5` and `0.2` are the exact rationals `8/10`, `5/10`, `2/10`. -/
def class_step (score : ℚ) (c : Char) : ℚ :=
  if c ∈ LETTERS then score + 1
  else if c = ' ' then score + 8/10
  else if c ∈ DIGITS then score + 5/10
  else if c ∈ PUNCTUATION then score + 2/10
  else if c ∉ PRINTABLE then score - 10
  else score

/-- The source's `text_letters` variable: the letters of the text, case-folded
(xortools.py lines 87–88). -/
def text_letters (text : List Char) : List Char :=
  (text.filter (fun c => c ∈ LETTERS)).map Char.toLower

/-- The normalisation constant `totalsum` of `englishscore` (line 91). -/
def english_totalsum : ℚ := (english_distribution.map Prod.snd).sum

/-- The Pearson chi-squared statistic of `englishscore` (lines 105–111).  The
source builds `textdist` by adding `1.0/textlen` per occurrence of a letter;
in exact arithmetic that dictionary maps a letter `c` to `count c / textlen`
(and letters absent from the text to `0`, which is `count = 0` over
`textlen`), which is how the distribution is written here.  The source sums
the 26 per-letter terms and multiplies the sum by `textlen` at the end. -/
def english_chi2 (text : List Char) : ℚ :=
  ((english_distribution.map (fun e =>
      (((text_letters text).count e.1 : ℚ) / ((text_letters text).length : ℚ)
          - e.2 / english_totalsum) ^ 2
        / (e.2 / english_totalsum))).sum)
    * ((text_letters text).length : ℚ)

/-- The source's `englishscore` (xortools.py lines 59–120): the character-class
loop, then — only when the text has at least one letter — a frequency bonus of
`1` when the chi-squared statistic is at most `1` and `1/chi2` otherwise.
The source adds the bonus with `score += bonus` inside the `if`; adding `0`
in the other branch is the same sum. -/
def englishscore (text : List Char) : ℚ :=
  (text.foldl class_step 0)
    + (if 0 < (text_letters text).length
       then (if english_chi2 text ≤ 1 then 1 else 1 / english_chi2 text)
       else 0)

/-- Stated from the claim's words (C9): the weight of one character — +1 per
letter, +0.8 per space, +0.5 per digit, +0.2 per punctuation character, 0 for
any other printable character, −10 per character outside the printable set. -/
def charWeight (c : Char) : ℚ :=
  if c ∈ LETTERS then 1
  else if c = ' ' then 8/10
  else if c ∈ DIGITS then 5/10
  else if c ∈ PUNCTUATION then 2/10
  else if c ∈ PRINTABLE then 0
  else -10

/-- Stated from the claim's words (C9): the chi-squared statistic
`N * Σ (observed_freq - expected_freq)^2 / expected_freq` over the 26
case-folded letters, with the expected frequencies normalised to sum to 1. -/
def chi2stat (text : List Char) : ℚ :=
  ((text_letters text).length : ℚ)
    * ((english_distribution.map (fun e =>
        (((text_letters text).count e.1 : ℚ) / ((text_letters text).length : ℚ)
            - e.2 / english_totalsum) ^ 2
          / (e.2 / english_totalsum))).sum)

/-- Stated from the claim's words (C9): the whole scoring formula — the sum of
per-character weights, plus, only when the text contains at least one letter,
a frequency bonus of `1` if the chi-squared statistic is ≤ 1 and `1/chi2`
otherwise. -/
def englishscore_spec (text : List Char) : ℚ :=
  (text.map charWeight).sum
    + (if ∃ c ∈ text, c ∈ LETTERS
       then (if chi2stat text ≤ 1 then 1 else 1 / chi2stat text)
       else 0)

lemma class_step_eq (score : ℚ) (c : Char) : class_step score c = score + charWeight c := by
  unfold class_step charWeight
  split_ifs <;> ring

lemma foldl_class_step (l : List Char) (a : ℚ) :
    l.foldl class_step a = a + (l.map charWeight).sum := by
  induction l generalizing a with
  | nil => simp
  | cons c l ih => simp [class_step_eq, ih, add_assoc]

lemma text_letters_pos_iff (text : List Char) :
    0 < (text_letters text).length ↔ ∃ c ∈ text, c ∈ LETTERS := by
  unfold text_letters
  rw [List.length_map, List.length_pos]
  constructor
  · intro h
    rcases List.exists_mem_of_ne_nil _ h with ⟨c, hc⟩
    rw [List.mem_filter] at hc
    exact ⟨c, hc.1, by simpa using hc.2⟩
  · rintro ⟨c, hc, hl⟩
    intro hnil
    have : c ∈ List.filter (fun c => decide (c ∈ LETTERS)) text :=
      List.mem_filter.mpr ⟨hc, by simpa using hl⟩
    simp [hnil] at this

/-- Claim C9 — the EnglishScorer formula: for every text, `englishscore text`
equals the sum of the claim's per-character weights plus, exactly when the
text contains at least one letter, the chi-squared frequency bonus (1 when
chi2 ≤ 1, else 1/chi2). -/
theorem englishscore_eq_spec (text : List Char) : englishscore text = englishscore_spec text := by
  unfold englishscore englishscore_spec
  rw [foldl_class_step, zero_add]
  have hchi : english_chi2 text = chi2stat text := by
    unfold english_chi2 chi2stat
    ring
  by_cases h : ∃ c ∈ text, c ∈ LETTERS
  · rw [if_pos h, if_pos ((text_letters_pos_iff text).mpr h), hchi]
  · rw [if_neg h, if_neg (fun hp => h ((text_letters_pos_iff text).mp hp))]

/-! ### Stable sorting

Python's `sorted` is a stable comparison sort.  It is realised here as a
stable insertion sort (`pysorted`): every stable sort of a list under the
same total, transitive comparison produces the same output, and this one is
structurally recursive, so concrete instances evaluate under `decide`
(Lean's `List.mergeSort` is defined by well-founded recursion and does not).
-/

/-- Insert `x` after every element `y` of an already sorted list with
`le y x` (so that elements comparing equal keep their original order). -/
def insort (le : α → α → Bool) (x : α) : List α → List α
  | [] => [x]
  | y :: ys => if le y x then y :: insort le x ys else x :: y :: ys

/-- Stable sort by the comparison `le`: the denotation of Python's
`sorted(l, key=...)`. -/
def pysorted (le : α → α → Bool) (l : List α) : List α :=
  l.foldl (fun acc x => insort le x acc) []

lemma insort_perm (le : α → α → Bool) (x : α) (l : List α) :
    (insort le x l).Perm (x :: l) := by
  induction l with
  | nil => simp [insort]
  | cons y ys ih =>
    by_cases h : le y x
    · simpa [insort, h] using ((ih.cons y).trans (List.Perm.swap x y ys))
    · simp [insort, h]

lemma insort_sorted (le : α → α → Bool)
    (htot : ∀ a b, le a b = true ∨ le b a = true)
    (htrans : ∀ a b c, le a b = true → le b c = true → le a c = true)
    (x : α) (l : List α) (h : l.Pairwise (fun a b => le a b = true)) :
    (insort le x l).Pairwise (fun a b => le a b = true) := by
  induction l with
  | nil => simp [insort]
  | cons y ys ih =>
    rcases List.pairwise_cons.mp h with ⟨hy, hys⟩
    by_cases hle : le y x
    · rw [insort, if_pos hle]
      refine List.pairwise_cons.mpr ⟨?_, ih hys⟩
      intro z hz
      have hz2 : z ∈ x :: ys := (insort_perm le x ys).mem_iff.mp hz
      rcases List.mem_cons.mp hz2 with rfl | hz3
      · exact hle
      · exact hy z hz3
    · rw [insort, if_neg hle]
      have hxy : le x y = true := (htot x y).resolve_right (by simpa using hle)
      refine List.pairwise_cons.mpr ⟨?_, h⟩
      intro z hz
      rcases List.mem_cons.mp hz with rfl | hz2
      · exact hxy
      · exact htrans x y z hxy (hy z hz2)

lemma pysorted_perm (le : α → α → Bool) (l : List α) : (pysorted le l).Perm l := by
  have key : ∀ (l acc : List α), (l.foldl (fun acc x => insort le x acc) acc).Perm (acc ++ l) := by
    intro l
    induction l with
    | nil => simp
    | cons x xs ih =>
      intro acc
      have h1 := ih (insort le x acc)
      have h2 : ((insort le x acc) ++ xs).Perm (acc ++ x :: xs) :=
        ((insort_perm le x acc).append_right xs).trans List.perm_middle.symm
      simpa [List.foldl_cons] using h1.trans h2
  simpa using key l []

lemma pysorted_sorted (le : α → α → Bool)
    (htot : ∀ a b, le a b = true ∨ le b a = true)
    (htrans : ∀ a b c, le a b = true → le b c = true → le a c = true)
    (l : List α) : (pysorted le l).Pairwise (fun a b => le a b = true) := by
  have key : ∀ (l acc : List α), acc.Pairwise (fun a b => le a b = true) →
      (l.foldl (fun acc x => insort le x acc) acc).Pairwise (fun a b => le a b = true) := by
    intro l
    induction l with
    | nil => intro acc h; simpa using h
    | cons x xs ih =>
      intro acc h
      exact ih (insort le x acc) (insort_sorted le htot htrans x acc h)
  exact key l [] (by simp)

/-! ### HammingAnalyzer: `hamming_distance`, `findkeylen_all` -/

/-- The source's `hamming_distance` (xortools.py lines 39–46): for each pair
of bytes, the number of set bits of their XOR (`sum((diff >> i) & 1 for i in
range(8))`), summed over the zipped byte arrays. -/
def popcount8 (x : ℕ) : ℕ := ((List.range 8).map (fun i => (x >>> i) &&& 1)).sum

/-- The byte-array Hamming distance of the source (lines 39–46). -/
def hamming_distance (a b : List ℕ) : ℕ :=
  ((a.zip b).map (fun p => popcount8 (p.1 ^^^ p.2))).sum

/-- The source's recursive `egcd` (lines 49–55), realised with an explicit
fuel argument equal to the first argument (each recursive call strictly
decreases it: `b % a < a`), so that the definition is structural and
evaluates under `decide`.  `egcd_fst` shows the first component is the gcd. -/
def egcd_fuel : ℕ → ℕ → ℕ → ℕ × ℤ × ℤ
  | _, 0, b => (b, 0, 1)
  | 0, _ + 1, b => (b, 0, 1)
  | fuel + 1, a + 1, b =>
    let r := egcd_fuel fuel (b % (a + 1)) (a + 1)
    (r.1, r.2.2 - ((b / (a + 1) : ℕ) : ℤ) * r.2.1, r.2.1)

/-- The source's `egcd(a, b)`; only its first component (the gcd) is used by
`findkeylen`. -/
def egcd (a b : ℕ) : ℕ × ℤ × ℤ := egcd_fuel a a b

lemma egcd_fuel_fst : ∀ (fuel a b : ℕ), a ≤ fuel → (egcd_fuel fuel a b).1 = Nat.gcd a b := by
  intro fuel
  induction fuel with
  | zero =>
    intro a b ha
    have h0 : a = 0 := by omega
    subst h0
    simp [egcd_fuel]
  | succ fuel ih =>
    intro a b ha
    match a with
    | 0 => simp [egcd_fuel]
    | a + 1 =>
      have hlt : b % (a + 1) < a + 1 := Nat.mod_lt b (by omega)
      have hrec : b % (a + 1) ≤ fuel := by omega
      simp only [egcd_fuel]
      rw [ih (b % (a + 1)) (a + 1) hrec, Nat.gcd_rec (a + 1) b]

lemma egcd_fst (a b : ℕ) : (egcd a b).1 = Nat.gcd a b :=
  egcd_fuel_fst a a b le_rfl

/-- Modelled from the spec: `chunk(data, n)` of §6 (the external
`ctftools.utils.blockify`, not part of the analysed sources): consecutive
blocks of `n` bytes each, the last block possibly shorter.  Block `i` is
`data[i*n : i*n + n]`, and there are `⌈len(data)/n⌉` blocks. -/
def blockify (l : List α) (n : ℕ) : List (List α) :=
  (List.range ((l.length + n - 1) / n)).map (fun i => (l.drop (i * n)).take n)

/-- Lines 146–149 of the source: split in blocks, keep only the blocks of
exactly `keylen` bytes. -/
def fullblocks (ct : List ℕ) (keylen : ℕ) : List (List ℕ) :=
  (blockify ct keylen).filter (fun b => b.length == keylen)

/-- The number of full blocks for a candidate length. -/
def numFullBlocks (ct : List ℕ) (keylen : ℕ) : ℕ := (fullblocks ct keylen).length

/-- `itertools.combinations(l, 2)` in its enumeration order: the pairs
`(l[i], l[j])` with `i < j`, ordered lexicographically by `(i, j)`. -/
def combinations2 {α : Type} : List α → List (α × α)
  | [] => []
  | x :: xs => xs.map (fun y => (x, y)) ++ combinations2 xs

lemma length_combinations2 {α : Type} (l : List α) :
    (combinations2 l).length = l.length.choose 2 := by
  induction l with
  | nil => simp [combinations2]
  | cons x xs ih =>
    simp [combinations2, ih, Nat.choose_succ_succ xs.length 1, Nat.choose_one_right]

/-- The comparison loop of `findkeylen_all` (lines 152–158): accumulate the
Hamming distance of each pair of full blocks and count the comparisons,
breaking once `n_comparisons >= maxcompperlen` — the check happens only
after a pair has been counted. -/
def distance_loop (maxcomp : ℕ) : List (List ℕ × List ℕ) → ℕ → ℕ → ℕ × ℕ
  | [], total, n => (total, n)
  | p :: ps, total, n =>
    if maxcomp ≤ n + 1 then (total + hamming_distance p.1 p.2, n + 1)
    else distance_loop maxcomp ps (total + hamming_distance p.1 p.2) (n + 1)

/-- The score of one candidate length (lines 146–163), `Option`-valued: the
source computes `float(total_distance) / n_comparisons / keylen`, and the
division raises `ZeroDivisionError` when no comparison was made; that fault
is modelled as `none`. -/
def len_score (ct : List ℕ) (maxcomp keylen : ℕ) : Option ℚ :=
  let r := distance_loop maxcomp (combinations2 (fullblocks ct keylen)) 0 0
  if r.2 = 0 then none
  else some (((r.1 : ℚ) / (r.2 : ℚ)) / (keylen : ℚ))

/-- The source's `findkeylen_all` (lines 123–167): score every candidate
length from 1 to `len(ciphertext) // 2` and return the (length, score) list
ordered by ascending score (Python's stable `sorted`).  `none` if any
length's score raises `ZeroDivisionError` (`findkeylen_all_eq` shows this
never happens). -/
def findkeylen_all (ct : List ℕ) (maxcomp : ℕ) : Option (List (ℕ × ℚ)) :=
  ((List.range' 1 (ct.length / 2)).mapM (fun keylen =>
      (len_score ct maxcomp keylen).map (fun s => (keylen, s)))).map
    (fun l => pysorted (fun a b : ℕ × ℚ => decide (a.2 ≤ b.2)) l)

/-- Stated from the claim's words (C5): the score of length `L` is the sum of
Hamming distances over the first `min(maxComparisonsPerLength,
C(numFullBlocks, 2))` unordered full-block pairs taken in block-index order,
divided by the number of pairs counted, divided by `L`. -/
def len_score_claim (ct : List ℕ) (maxcomp keylen : ℕ) : ℚ :=
  ((((combinations2 (fullblocks ct keylen)).take
        (min maxcomp ((numFullBlocks ct keylen).choose 2))).map
      (fun p => (hamming_distance p.1 p.2 : ℚ))).sum
    / ((min maxcomp ((numFullBlocks ct keylen).choose 2) : ℕ) : ℚ)) / (keylen : ℚ)

/-- Claim C5 as amended: as `len_score_claim`, except that the number of pairs
counted is `min(max(1, maxComparisonsPerLength), C(numFullBlocks, 2))` — the
source checks the cap only after a pair has been counted, so even a cap of 0
counts one pair. -/
def len_score_claim_amended (ct : List ℕ) (maxcomp keylen : ℕ) : ℚ :=
  ((((combinations2 (fullblocks ct keylen)).take
        (min (max 1 maxcomp) ((numFullBlocks ct keylen).choose 2))).map
      (fun p => (hamming_distance p.1 p.2 : ℚ))).sum
    / ((min (max 1 maxcomp) ((numFullBlocks ct keylen).choose 2) : ℕ) : ℚ)) / (keylen : ℚ)

lemma distance_loop_eq (maxcomp : ℕ) (l : List (List ℕ × List ℕ)) :
    ∀ (total n : ℕ), n < max 1 maxcomp →
      distance_loop maxcomp l total n
        = (total + ((l.take (min (max 1 maxcomp - n) l.length)).map
              (fun p => hamming_distance p.1 p.2)).sum,
           n + min (max 1 maxcomp - n) l.length) := by
  induction l with
  | nil => intro total n _; simp [distance_loop]
  | cons p ps ih =>
    intro total n h
    by_cases hstop : maxcomp ≤ n + 1
    · have hm : min (max 1 maxcomp - n) (p :: ps).length = 1 := by
        simp only [List.length_cons]; omega
      rw [hm]
      simp [distance_loop, hstop]
    · have hn1 : n + 1 < max 1 maxcomp := by omega
      have hm : min (max 1 maxcomp - n) (p :: ps).length
          = min (max 1 maxcomp - (n + 1)) ps.length + 1 := by
        simp only [List.length_cons]; omega
      rw [hm]
      simp only [distance_loop, if_neg hstop]
      rw [ih (total + hamming_distance p.1 p.2) (n + 1) hn1]
      simp only [List.take_succ_cons, List.map_cons, List.sum_cons, Prod.mk.injEq]
      constructor
      · ring
      · omega

lemma distance_loop_zero (maxcomp : ℕ) (l : List (List ℕ × List ℕ)) :
    distance_loop maxcomp l 0 0
      = (((l.take (min (max 1 maxcomp) l.length)).map
            (fun p => hamming_distance p.1 p.2)).sum,
         min (max 1 maxcomp) l.length) := by
  have h := distance_loop_eq maxcomp l 0 0 (by omega)
  simpa using h

lemma length_filter_range_two_le (p : ℕ → Bool) (m : ℕ) (hm : 2 ≤ m)
    (h0 : p 0 = true) (h1 : p 1 = true) : 2 ≤ ((List.range m).filter p).length := by
  obtain ⟨k, rfl⟩ : ∃ k, m = 2 + k := ⟨m - 2, by omega⟩
  rw [List.range_add, List.filter_append, List.length_append]
  have h2 : List.range 2 = [0, 1] := rfl
  rw [h2, List.filter_cons_of_pos h0, List.filter_cons_of_pos h1, List.filter_nil]
  simp

lemma two_le_numFullBlocks (ct : List ℕ) (keylen : ℕ) (hk : 0 < keylen)
    (hlen : 2 * keylen ≤ ct.length) : 2 ≤ numFullBlocks ct keylen := by
  unfold numFullBlocks fullblocks blockify
  rw [List.filter_map, List.length_map]
  have hm : 2 ≤ (ct.length + keylen - 1) / keylen := by
    rw [Nat.le_div_iff_mul_le hk]; omega
  refine length_filter_range_two_le _ _ hm ?_ ?_
  · show (((ct.drop (0 * keylen)).take keylen).length == keylen) = true
    rw [beq_iff_eq, List.length_take, List.length_drop]
    omega
  · show (((ct.drop (1 * keylen)).take keylen).length == keylen) = true
    rw [beq_iff_eq, List.length_take, List.length_drop]
    omega

lemma mapM_option_some {α β : Type} (f : α → Option β) (g : α → β) :
    ∀ l : List α, (∀ a ∈ l, f a = some (g a)) → l.mapM f = some (l.map g) := by
  intro l
  induction l with
  | nil => intro _; rfl
  | cons a l ih =>
    intro h
    rw [List.mapM_cons, h a (by simp), ih (fun x hx => h x (by simp [hx]))]
    rfl

lemma len_score_eq_amended (ct : List ℕ) (maxcomp keylen : ℕ) (hk : 0 < keylen)
    (hlen : 2 * keylen ≤ ct.length) :
    len_score ct maxcomp keylen = some (len_score_claim_amended ct maxcomp keylen) := by
  have hchoose : 1 ≤ (numFullBlocks ct keylen).choose 2 :=
    Nat.choose_pos (two_le_numFullBlocks ct keylen hk hlen)
  have hplen : (combinations2 (fullblocks ct keylen)).length = (numFullBlocks ct keylen).choose 2 :=
    length_combinations2 _
  unfold len_score len_score_claim_amended
  rw [distance_loop_zero, hplen]
  have hpos : min (max 1 maxcomp) ((numFullBlocks ct keylen).choose 2) ≠ 0 := by
    omega
  rw [if_neg hpos]
  congr 1
  rw [Nat.cast_list_sum, List.map_map]
  rfl

lemma findkeylen_all_eq (ct : List ℕ) (maxcomp : ℕ) :
    findkeylen_all ct maxcomp
      = some (pysorted (fun a b : ℕ × ℚ => decide (a.2 ≤ b.2))
          ((List.range' 1 (ct.length / 2)).map
            (fun L => (L, len_score_claim_amended ct maxcomp L)))) := by
  unfold findkeylen_all
  rw [mapM_option_some _ (fun L => (L, len_score_claim_amended ct maxcomp L))]
  · rfl
  · intro L hL
    rw [List.mem_range'_1] at hL
    have h2 : 2 * L ≤ ct.length := by
      have : L ≤ ct.length / 2 := by omega
      have := (Nat.le_div_iff_mul_le (by norm_num)).mp this
      omega
    rw [len_score_eq_amended ct maxcomp L (by omega) h2]
    rfl

/-- Claim C5 (as amended): `findkeylen_all` succeeds on every input, its
result is a permutation of the list pairing each candidate length `L` in
`1 .. len(ct)/2` with the amended score formula (the count of pairs is
`min(max(1, maxcompperlen), C(numFullBlocks, 2))`), and the result is sorted
by ascending score. -/
theorem findkeylen_all_scores (ct : List ℕ) (maxcomp : ℕ) :
    ∃ res, findkeylen_all ct maxcomp = some res
      ∧ res.Perm ((List.range' 1 (ct.length / 2)).map
          (fun L => (L, len_score_claim_amended ct maxcomp L)))
      ∧ res.Sorted (fun a b : ℕ × ℚ => a.2 ≤ b.2) := by
  refine ⟨_, findkeylen_all_eq ct maxcomp, pysorted_perm _ _, ?_⟩
  have h := pysorted_sorted (fun a b : ℕ × ℚ => decide (a.2 ≤ b.2))
    (fun a b => by rcases le_total a.2 b.2 with h | h <;> simp [h])
    (fun a b c hab hbc => by
      simp only [decide_eq_true_eq] at hab hbc ⊢
      exact le_trans hab hbc)
    ((List.range' 1 (ct.length / 2)).map (fun L => (L, len_score_claim_amended ct maxcomp L)))
  exact h.imp (by simp)

/-- Claim C5 fails as stated: at `maxcompperlen = 0` the source still counts
one comparison (the cap is tested only after incrementing), so for the
ciphertext `[0, 255]` the score of length 1 is `8`, while the claim's
formula prescribes `min(0, C(2,2)) = 0` pairs and yields `0`. -/
theorem findkeylen_all_cap_zero_cex :
    findkeylen_all [0, 255] 0 = some [(1, 8)]
      ∧ len_score_claim [0, 255] 0 1 = 0 ∧ ((8 : ℚ) ≠ 0) := by
  have hfull : fullblocks [0, 255] 1 = [[0], [255]] := by decide
  have hnum : numFullBlocks [0, 255] 1 = 2 := by decide
  have hham : hamming_distance [0] [255] = 8 := by decide
  have hch : Nat.choose 2 2 = 1 := rfl
  have hamend : len_score_claim_amended [0, 255] 0 1 = 8 := by
    unfold len_score_claim_amended
    rw [hnum, hfull, hch]
    simp only [combinations2, List.map_nil, List.map_cons, List.append_nil, List.nil_append]
    norm_num [hham]
  refine ⟨?_, ?_, by norm_num⟩
  · rw [findkeylen_all_eq]
    have hr : List.range' 1 (([0, 255] : List ℕ).length / 2) = [1] := rfl
    rw [hr, List.map_cons, List.map_nil, hamend]
    rfl
  · unfold len_score_claim
    rw [hnum, hch]
    simp

/-- Claim C6: `findkeylen_all` is total — the division by the number of
comparisons is never a division by zero, for every ciphertext and every
`maxcompperlen` — and every length it reports has at least 2 full blocks, so
a length with fewer than 2 full blocks never appears in the result. -/
theorem findkeylen_all_total (ct : List ℕ) (maxcomp : ℕ) :
    ∃ res, findkeylen_all ct maxcomp = some res
      ∧ ∀ p ∈ res, 2 ≤ numFullBlocks ct p.1 := by
  refine ⟨_, findkeylen_all_eq ct maxcomp, ?_⟩
  intro p hp
  have hp2 := (pysorted_perm (fun a b : ℕ × ℚ => decide (a.2 ≤ b.2)) _).mem_iff.mp hp
  rcases List.mem_map.mp hp2 with ⟨L, hL, rfl⟩
  rw [List.mem_range'_1] at hL
  have h2 : 2 * L ≤ ct.length := by
    have : L ≤ ct.length / 2 := by omega
    have := (Nat.le_div_iff_mul_le (by norm_num)).mp this
    omega
  exact two_le_numFullBlocks ct L (by omega) h2

/-! ### KeyLengthResolver: `findkeylen` -/

/-- The `gcd_occurences` dictionary of `findkeylen` (xortools.py lines
196–203), modelled as an association list in insertion order (Python
dictionaries iterate in insertion order).  `bump occ g` increments the count
of `g`, appending `(g, 1)` when `g` is not yet a key. -/
def bump : List (ℕ × ℕ) → ℕ → List (ℕ × ℕ)
  | [], g => [(g, 1)]
  | e :: occ, g => if e.1 = g then (e.1, e.2 + 1) :: occ else e :: bump occ g

/-- The voting loop of lines 197–203: for every unordered pair of top
lengths, vote for its gcd (computed with `egcd`), ignoring gcd 1. -/
def gcd_occurrences (pairs : List (ℕ × ℕ)) : List (ℕ × ℕ) :=
  pairs.foldl (fun occ p =>
    if (egcd p.1 p.2).1 ≠ 1 then bump occ (egcd p.1 p.2).1 else occ) []

/-- Line 206 of the source: `max(gcd_occurences.keys(), key=...)` — the first
key in iteration order whose count is maximal (Python's `max` keeps the
first of several maxima).  Python raises `ValueError` on an empty
dictionary; that fault is `none`. -/
def max_by_count : List (ℕ × ℕ) → Option ℕ
  | [] => none
  | e :: occ => some ((occ.foldl (fun best f => if best.2 < f.2 then f else best) e).1)

/-- The gcd-voting step of the source's `findkeylen` (lines 192–206) as a
function of the scored-length list and `topn`. -/
def findkeylen_gcd (len_score_list : List (ℕ × ℚ)) (topn : ℕ) : Option ℕ :=
  max_by_count (gcd_occurrences (combinations2 ((len_score_list.take topn).map Prod.fst)))

/-- The source's `findkeylen` (lines 170–206): score all lengths, then take
the most common nontrivial gcd of the top `topn` candidates. -/
def findkeylen (ct : List ℕ) (topn maxcomp : ℕ) : Option ℕ :=
  (findkeylen_all ct maxcomp).bind (fun l => findkeylen_gcd l topn)

/-- The number of votes a gcd value receives from a list of pairs. -/
def votecount (pairs : List (ℕ × ℕ)) (g : ℕ) : ℕ :=
  (pairs.filter (fun p => Nat.gcd p.1 p.2 == g)).length

/-- Lookup of a key's count in the association list (0 when absent). -/
def lkup : List (ℕ × ℕ) → ℕ → ℕ
  | [], _ => 0
  | e :: occ, g => if e.1 = g then e.2 else lkup occ g

lemma bump_lkup (occ : List (ℕ × ℕ)) (g h : ℕ) :
    lkup (bump occ g) h = if h = g then lkup occ g + 1 else lkup occ h := by
  induction occ with
  | nil =>
    by_cases hg : h = g
    · simp [bump, lkup, hg]
    · have h2 : ¬g = h := fun he => hg he.symm
      simp [bump, lkup, hg, h2]
  | cons e occ ih =>
    by_cases he : e.1 = g
    · by_cases hh : h = g
      · simp [bump, lkup, he, hh, he.trans hh.symm]
      · have hne : e.1 ≠ h := fun h2 => hh (h2.symm.trans he)
        have h2 : ¬g = h := fun h3 => hh h3.symm
        simp [bump, lkup, he, hh, hne, h2]
    · by_cases hh : e.1 = h
      · have hne : h ≠ g := fun h2 => he (hh.trans h2)
        simp [bump, lkup, he, hh, hne]
      · simp [bump, lkup, he, hh, ih]

lemma bump_ne_nil (occ : List (ℕ × ℕ)) (g : ℕ) : bump occ g ≠ [] := by
  cases occ with
  | nil => simp [bump]
  | cons e occ =>
    by_cases he : e.1 = g <;> simp [bump, he]

lemma bump_mem (occ : List (ℕ × ℕ)) (g : ℕ) :
    ∀ e ∈ bump occ g, (e.1 = g ∧ lkup occ g + 1 ≤ e.2) ∨ e ∈ occ := by
  induction occ with
  | nil => intro e he; simp [bump] at he; subst he; simp [lkup]
  | cons f occ ih =>
    intro e he
    by_cases hf : f.1 = g
    · rw [bump, if_pos hf] at he
      rcases List.mem_cons.mp he with rfl | h2
      · exact Or.inl ⟨hf, by simp [lkup, hf]⟩
      · exact Or.inr (List.mem_cons_of_mem f h2)
    · rw [bump, if_neg hf] at he
      rcases List.mem_cons.mp he with rfl | h2
      · exact Or.inr (List.mem_cons_self e occ)
      · rcases ih e h2 with ⟨h3, h4⟩ | h3
        · exact Or.inl ⟨h3, by simpa [lkup, hf, h3] using h4⟩
        · exact Or.inr (List.mem_cons_of_mem f h3)

lemma bump_keys_of_mem (occ : List (ℕ × ℕ)) (g : ℕ) (h : g ∈ occ.map Prod.fst) :
    (bump occ g).map Prod.fst = occ.map Prod.fst := by
  induction occ with
  | nil => simp at h
  | cons e occ ih =>
    by_cases he : e.1 = g
    · simp [bump, he]
    · have h2 : g ∈ occ.map Prod.fst := by
        rcases List.mem_map.mp h with ⟨f, hf, hfg⟩
        rcases List.mem_cons.mp hf with rfl | hf2
        · exact absurd hfg he
        · exact List.mem_map.mpr ⟨f, hf2, hfg⟩
      simp [bump, he, ih h2]

lemma bump_keys_of_not_mem (occ : List (ℕ × ℕ)) (g : ℕ) (h : g ∉ occ.map Prod.fst) :
    (bump occ g).map Prod.fst = occ.map Prod.fst ++ [g] := by
  induction occ with
  | nil => simp [bump]
  | cons e occ ih =>
    have he : e.1 ≠ g := by
      intro h2
      exact h (List.mem_map.mpr ⟨e, List.mem_cons_self e occ, h2⟩)
    have h2 : g ∉ occ.map Prod.fst := fun h3 => h (by simp [h3])
    simp [bump, he, ih h2]

lemma bump_keys_nodup (occ : List (ℕ × ℕ)) (g : ℕ) (h : (occ.map Prod.fst).Nodup) :
    ((bump occ g).map Prod.fst).Nodup := by
  by_cases hg : g ∈ occ.map Prod.fst
  · rw [bump_keys_of_mem occ g hg]; exact h
  · rw [bump_keys_of_not_mem occ g hg]
    refine List.Nodup.append h (List.nodup_singleton g) ?_
    intro x hx hxg
    rw [List.mem_singleton] at hxg
    exact hg (hxg ▸ hx)

lemma lkup_of_nodup (occ : List (ℕ × ℕ)) (h : (occ.map Prod.fst).Nodup) :
    ∀ e ∈ occ, lkup occ e.1 = e.2 := by
  induction occ with
  | nil => intro e he; simp at he
  | cons f occ ih =>
    rw [List.map_cons] at h
    rcases List.nodup_cons.mp h with ⟨hf, htail⟩
    intro e he
    rcases List.mem_cons.mp he with rfl | h2
    · simp [lkup]
    · have hne : f.1 ≠ e.1 := fun heq => hf (List.mem_map.mpr ⟨e, h2, heq.symm⟩)
      rw [lkup, if_neg hne]
      exact ih htail e h2

lemma lkup_zero_or_mem (occ : List (ℕ × ℕ)) (g : ℕ) :
    lkup occ g = 0 ∨ ∃ e ∈ occ, e.1 = g ∧ e.2 = lkup occ g := by
  induction occ with
  | nil => exact Or.inl rfl
  | cons f occ ih =>
    by_cases hf : f.1 = g
    · exact Or.inr ⟨f, List.mem_cons_self f occ, hf, by simp [lkup, hf]⟩
    · rcases ih with h0 | ⟨e, he, h1, h2⟩
      · exact Or.inl (by simp [lkup, hf, h0])
      · exact Or.inr ⟨e, List.mem_cons_of_mem f he, h1, by simp [lkup, hf, h2]⟩

/-- The normalised form of the voting fold's step function (via `egcd_fst`). -/
def vote_step (occ : List (ℕ × ℕ)) (p : ℕ × ℕ) : List (ℕ × ℕ) :=
  if Nat.gcd p.1 p.2 ≠ 1 then bump occ (Nat.gcd p.1 p.2) else occ

lemma gcd_occurrences_eq (pairs : List (ℕ × ℕ)) :
    gcd_occurrences pairs = pairs.foldl vote_step [] := by
  unfold gcd_occurrences vote_step
  simp only [egcd_fst]

lemma fold_vote_invariant (pairs : List (ℕ × ℕ)) :
    ∀ occ : List (ℕ × ℕ),
      ((occ.map Prod.fst).Nodup) → (∀ e ∈ occ, e.1 ≠ 1 ∧ 1 ≤ e.2) →
      (((pairs.foldl vote_step occ).map Prod.fst).Nodup
        ∧ (∀ e ∈ pairs.foldl vote_step occ, e.1 ≠ 1 ∧ 1 ≤ e.2)
        ∧ ∀ g, g ≠ 1 → lkup (pairs.foldl vote_step occ) g = lkup occ g + votecount pairs g) := by
  induction pairs with
  | nil => intro occ h1 h2; refine ⟨h1, h2, fun g _ => ?_⟩; simp [votecount]
  | cons p pairs ih =>
    intro occ h1 h2
    by_cases hg : Nat.gcd p.1 p.2 ≠ 1
    · have hstep : vote_step occ p = bump occ (Nat.gcd p.1 p.2) := by
        rw [vote_step, if_pos hg]
      have hb1 : ((bump occ (Nat.gcd p.1 p.2)).map Prod.fst).Nodup := bump_keys_nodup occ _ h1
      have hb2 : ∀ e ∈ bump occ (Nat.gcd p.1 p.2), e.1 ≠ 1 ∧ 1 ≤ e.2 := by
        intro e he
        rcases bump_mem occ _ e he with ⟨h3, h4⟩ | h3
        · exact ⟨h3 ▸ hg, by omega⟩
        · exact h2 e h3
      obtain ⟨k1, k2, k3⟩ := ih (bump occ (Nat.gcd p.1 p.2)) hb1 hb2
      refine ⟨by simpa [hstep] using k1, by simpa [hstep] using k2, fun g hg1 => ?_⟩
      rw [List.foldl_cons, hstep, k3 g hg1, bump_lkup]
      by_cases he : g = Nat.gcd p.1 p.2
      · rw [if_pos he, ← he]
        have hv : votecount (p :: pairs) g = votecount pairs g + 1 := by
          unfold votecount
          rw [List.filter_cons]
          have hb : (Nat.gcd p.1 p.2 == g) = true := by rw [beq_iff_eq, ← he]
          simp [hb, Nat.add_comm]
        rw [hv]
        omega
      · rw [if_neg he]
        have hv : votecount (p :: pairs) g = votecount pairs g := by
          unfold votecount
          rw [List.filter_cons]
          have hb : (Nat.gcd p.1 p.2 == g) = false := by
            rw [beq_eq_false_iff_ne]
            exact fun h3 => he h3.symm
          simp [hb]
        rw [hv]
    · have hstep : vote_step occ p = occ := by rw [vote_step, if_neg hg]
      obtain ⟨k1, k2, k3⟩ := ih occ h1 h2
      push_neg at hg
      refine ⟨by simpa [hstep] using k1, by simpa [hstep] using k2, fun g hg1 => ?_⟩
      have hv : votecount (p :: pairs) g = votecount pairs g := by
        unfold votecount
        rw [List.filter_cons]
        have hb : (Nat.gcd p.1 p.2 == g) = false := by
          rw [beq_eq_false_iff_ne, hg]
          exact fun h3 => hg1 h3.symm
        simp [hb]
      rw [List.foldl_cons, hstep, k3 g hg1, hv]

lemma fold_vote_all_one (pairs : List (ℕ × ℕ)) (occ : List (ℕ × ℕ))
    (h : ∀ p ∈ pairs, Nat.gcd p.1 p.2 = 1) : pairs.foldl vote_step occ = occ := by
  induction pairs generalizing occ with
  | nil => rfl
  | cons p pairs ih =>
    have hstep : vote_step occ p = occ := by
      rw [vote_step, if_neg (by simpa using h p (List.mem_cons_self p pairs))]
    rw [List.foldl_cons, hstep]
    exact ih occ (fun q hq => h q (List.mem_cons_of_mem p hq))

lemma fold_vote_ne_nil (pairs : List (ℕ × ℕ)) (occ : List (ℕ × ℕ)) (h : occ ≠ []) :
    pairs.foldl vote_step occ ≠ [] := by
  induction pairs generalizing occ with
  | nil => simpa
  | cons p pairs ih =>
    rw [List.foldl_cons]
    refine ih _ ?_
    unfold vote_step
    split
    · exact bump_ne_nil occ _
    · exact h

lemma fold_vote_ne_nil_of_exists (pairs : List (ℕ × ℕ)) (occ : List (ℕ × ℕ))
    (h : ∃ p ∈ pairs, Nat.gcd p.1 p.2 ≠ 1) : pairs.foldl vote_step occ ≠ [] := by
  induction pairs generalizing occ with
  | nil => simp at h
  | cons p pairs ih =>
    rw [List.foldl_cons]
    by_cases hp : Nat.gcd p.1 p.2 ≠ 1
    · have hstep : vote_step occ p = bump occ (Nat.gcd p.1 p.2) := by
        rw [vote_step, if_pos hp]
      rw [hstep]
      exact fold_vote_ne_nil pairs _ (bump_ne_nil occ _)
    · have hstep : vote_step occ p = occ := by rw [vote_step, if_neg hp]
      rw [hstep]
      rcases h with ⟨q, hq, hq1⟩
      rcases List.mem_cons.mp hq with rfl | hq2
      · exact absurd hq1 hp
      · exact ih occ ⟨q, hq2, hq1⟩

lemma foldl_max_spec (occ : List (ℕ × ℕ)) (e : ℕ × ℕ) :
    (occ.foldl (fun best f => if best.2 < f.2 then f else best) e) ∈ e :: occ
      ∧ ∀ f ∈ e :: occ, f.2 ≤ (occ.foldl (fun best f => if best.2 < f.2 then f else best) e).2 := by
  induction occ generalizing e with
  | nil => exact ⟨List.mem_singleton_self e, by simp⟩
  | cons f occ ih =>
    obtain ⟨hmem, hbound⟩ := ih (if e.2 < f.2 then f else e)
    constructor
    · rw [List.foldl_cons]
      rcases List.mem_cons.mp hmem with h2 | h2
      · rw [h2]
        split <;> simp
      · exact List.mem_cons_of_mem e (List.mem_cons_of_mem f h2)
    · intro x hx
      rw [List.foldl_cons]
      have hstart : x.2 ≤ (if e.2 < f.2 then f else e).2 ∨ x ∈ occ := by
        rcases List.mem_cons.mp hx with rfl | hx2
        · left; split <;> omega
        · rcases List.mem_cons.mp hx2 with rfl | hx3
          · left; split <;> omega
          · right; exact hx3
      rcases hstart with h2 | h2
      · exact le_trans h2 (hbound _ (List.mem_cons_self _ occ))
      · exact hbound x (List.mem_cons_of_mem _ h2)

/-- Claim C4 — KeyLengthResolver failure and success: for every scored-length
list and every `topn`, the gcd vote fails (the `ValueError` from `max` on an
empty dictionary, modelled `none`) exactly when every pairwise gcd of the
top `topn` candidate lengths is 1; and whenever it returns a value, that
value is a nontrivial gcd whose vote count over all unordered pairs of the
top `topn` lengths is positive and maximal. -/
theorem findkeylen_gcd_spec (lsl : List (ℕ × ℚ)) (topn : ℕ) :
    (findkeylen_gcd lsl topn = none
        ↔ ∀ p ∈ combinations2 ((lsl.take topn).map Prod.fst), Nat.gcd p.1 p.2 = 1)
      ∧ ∀ g, findkeylen_gcd lsl topn = some g →
          g ≠ 1 ∧ 1 ≤ votecount (combinations2 ((lsl.take topn).map Prod.fst)) g
            ∧ ∀ h, h ≠ 1 →
                votecount (combinations2 ((lsl.take topn).map Prod.fst)) h
                  ≤ votecount (combinations2 ((lsl.take topn).map Prod.fst)) g := by
  have hocc := gcd_occurrences_eq (combinations2 ((lsl.take topn).map Prod.fst))
  obtain ⟨hnodup, hentries, hcount⟩ :=
    fold_vote_invariant (combinations2 ((lsl.take topn).map Prod.fst)) [] (by simp) (by simp)
  constructor
  · constructor
    · intro hnone p hp
      by_contra hg
      have hne := fold_vote_ne_nil_of_exists (combinations2 ((lsl.take topn).map Prod.fst)) []
        ⟨p, hp, hg⟩
      unfold findkeylen_gcd at hnone
      rw [hocc] at hnone
      cases hfold : List.foldl vote_step [] (combinations2 ((lsl.take topn).map Prod.fst)) with
      | nil => exact hne hfold
      | cons e occ => rw [hfold] at hnone; simp [max_by_count] at hnone
    · intro hall
      unfold findkeylen_gcd
      rw [hocc, fold_vote_all_one _ _ hall]
      rfl
  · intro g hg
    unfold findkeylen_gcd at hg
    rw [hocc] at hg
    cases hfold : List.foldl vote_step [] (combinations2 ((lsl.take topn).map Prod.fst)) with
    | nil => rw [hfold] at hg; simp [max_by_count] at hg
    | cons e occ =>
      rw [hfold] at hg
      obtain ⟨hmem, hbound⟩ := foldl_max_spec occ e
      have hgbest : (occ.foldl (fun best f => if best.2 < f.2 then f else best) e).1 = g := by
        simpa [max_by_count] using hg
      set best := occ.foldl (fun best f => if best.2 < f.2 then f else best) e with hbest
      have hmem2 : best ∈ List.foldl vote_step [] (combinations2 ((lsl.take topn).map Prod.fst)) := by
        rw [hfold]; exact hmem
      have hone : best.1 ≠ 1 ∧ 1 ≤ best.2 := hentries best hmem2
      have hlk : lkup (List.foldl vote_step [] (combinations2 ((lsl.take topn).map Prod.fst)))
          best.1 = best.2 := lkup_of_nodup _ hnodup best hmem2
      have hvg : votecount (combinations2 ((lsl.take topn).map Prod.fst)) g = best.2 := by
        have := hcount g (hgbest ▸ hone.1)
        rw [hgbest] at hlk
        simp only [lkup] at this
        omega
      refine ⟨hgbest ▸ hone.1, by omega, ?_⟩
      intro h hh
      have hch := hcount h hh
      simp only [lkup] at hch
      rcases lkup_zero_or_mem
          (List.foldl vote_step [] (combinations2 ((lsl.take topn).map Prod.fst))) h with
        h0 | ⟨f, hf, hf1, hf2⟩
      · omega
      · have hfb : f.2 ≤ best.2 := by
          rw [hfold] at hf
          exact hbound f hf
        omega

/-- Witness for claim C4 at a concrete scored-length list: with top lengths
4, 6, 9 the pairwise gcds are 2, 1, 3; the vote returns the nontrivial gcd 2
and its vote count is positive and maximal. -/
theorem findkeylen_gcd_spec_witness :
    findkeylen_gcd [(4, (0 : ℚ)), (6, 0), (9, 0)] 3 = some 2
      ∧ (2 ≠ 1 ∧ 1 ≤ votecount (combinations2 (([(4, (0 : ℚ)), (6, 0), (9, 0)].take 3).map
            Prod.fst)) 2
          ∧ ∀ h, h ≠ 1 →
              votecount (combinations2 (([(4, (0 : ℚ)), (6, 0), (9, 0)].take 3).map Prod.fst)) h
                ≤ votecount (combinations2 (([(4, (0 : ℚ)), (6, 0), (9, 0)].take 3).map
                    Prod.fst)) 2) :=
  ⟨by decide, (findkeylen_gcd_spec [(4, (0 : ℚ)), (6, 0), (9, 0)] 3).2 2 (by decide)⟩

/-! ### CharsetPruner and KeyEnumerator: `findkeychars`, `findkeys`, `findkey` -/

/-- Modelled from the spec: `columns(data, n)` of §6 (the external
`ctftools.utils.columnify`, not part of the analysed sources): `n` ordered
sequences, column `j` holding the bytes at positions ≡ j (mod n). -/
def columnify (l : List ℕ) (n : ℕ) : List (List ℕ) :=
  (List.range n).map (fun j => (l.enum.filter (fun p => p.1 % n == j)).map Prod.snd)

/-- The `ok_set` of `findkeychars` (xortools.py line 243): the key bytes
that map the ciphertext byte `char` into the charset. -/
def ok_set (decfunc : ℕ → ℕ → ℕ) (charset : List ℕ) (char : ℕ) : List ℕ :=
  (List.range 256).filter (fun k => charset.contains (decfunc char k))

/-- The value of the `good_chars` chain of `findkeychars` (lines 240–245)
when it is finally consumed.  The source builds

    `good_chars = [int2byte(x) for x in range(256)]`
    `for char in column:`
    `    ok_set = [...]`
    `    good_chars = filter((lambda e: e in ok_set), good_chars)`

with the lazy `filter` of `six.moves`: nothing is evaluated until
`sorted(good_chars, key=fitnessfunc)` iterates the chain after the loop, and
every stacked lambda closes over the single loop variable `ok_set` (Python
closures capture the variable, not its value).  So when the chain is
consumed, each of the `len(column)` filters tests membership in the ok-set
of the column's LAST byte — that observable value is what this definition
embeds.  The source's comment at line 245, "take intersection with previous
acceptable values", describes the intended eager behaviour instead; the two
differ (`findkeychars_lazy_filter_cex`). -/
def findkeychars_column (decfunc : ℕ → ℕ → ℕ) (charset : List ℕ) (column : List ℕ) : List ℕ :=
  match column.getLast? with
  | none => List.range 256
  | some c =>
      column.foldl
        (fun good_chars _ => good_chars.filter (fun e => (ok_set decfunc charset c).contains e))
        (List.range 256)

/-- The per-column ranking step (lines 247–254): sort the surviving key
bytes ascending by the english score of the whole column decrypted with that
byte, then reverse (`sorted(good_chars, key=fitnessfunc)[::-1]`); decrypted
bytes are read as characters. -/
def fitness_sort (decfunc : ℕ → ℕ → ℕ) (column : List ℕ) (good_chars : List ℕ) : List ℕ :=
  (pysorted (fun a b =>
      decide (englishscore (column.map (fun c => Char.ofNat (decfunc c a)))
        ≤ englishscore (column.map (fun c => Char.ofNat (decfunc c b))))) good_chars).reverse

/-- The source's `findkeychars` (lines 209–263) at an explicit key length:
for each column of the ciphertext, the surviving candidate key bytes ranked
best-first. -/
def findkeychars (ct : List ℕ) (keylen : ℕ) (charset : List ℕ) (decfunc : ℕ → ℕ → ℕ) :
    List (List ℕ) :=
  (columnify ct keylen).map (fun column =>
    fitness_sort decfunc column (findkeychars_column decfunc charset column))

/-- Stated from the claim's words (C1): the exact set of key bytes `k` such
that `decfunc c k` lies in the charset for every ciphertext byte `c` of the
column. -/
def findkeychars_claim_column (decfunc : ℕ → ℕ → ℕ) (charset : List ℕ) (column : List ℕ) :
    List ℕ :=
  (List.range 256).filter (fun k => column.all (fun c => charset.contains (decfunc c k)))

/-- `itertools.product(*char_list)` (line 287) in its enumeration order: the
last column varies fastest. -/
def itproduct {α : Type} : List (List α) → List (List α)
  | [] => [[]]
  | l :: ls => (l.map (fun x => (itproduct ls).map (fun t => x :: t))).flatten

/-- The source's `findkeys` (lines 266–287): the keys the generator yields,
in order, before `iter_prod` is exhausted. -/
def findkeys (ct : List ℕ) (keylen : ℕ) (charset : List ℕ) (decfunc : ℕ → ℕ → ℕ) :
    List (List ℕ) :=
  itproduct (findkeychars ct keylen charset decfunc)

/-- The source's `findkey` (lines 290–302) under its intended semantics: the
comment at line 284 says `key_generator` stops when `iter_prod` raises
`StopIteration`, and `findkey` catches `StopIteration` and returns `None`
(`none`) when the enumeration is empty.  Under Python ≥ 3.7 (PEP 479) a
`StopIteration` raised inside the generator is replaced by `RuntimeError`,
which the `except StopIteration` of `findkey` does not catch — see claim
C3's record. -/
def findkey (ct : List ℕ) (keylen : ℕ) (charset : List ℕ) (decfunc : ℕ → ℕ → ℕ) :
    Option (List ℕ) :=
  (findkeys ct keylen charset decfunc).head?

/-- Claim C1 fails on the code (code bug): for ciphertext `[68, 71]`, key
length 1, charset `{65, 66, 67}` (`"ABC"`) and the default XOR combiner, the
candidate set the source produces for column 0 contains the key byte 4,
although decrypting the column byte 68 with key 4 gives 64, outside the
charset: the lazily-consumed `filter` chain prunes by the LAST column byte
only, while the claim (like the source's own "take intersection with
previous acceptable values" comment) requires the intersection over all
column bytes, which is `{5, 6}`. -/
theorem findkeychars_lazy_filter_cex :
    4 ∈ (findkeychars [68, 71] 1 [65, 66, 67] xor).getD 0 []
      ∧ 4 ∉ findkeychars_claim_column xor [65, 66, 67] [68, 71]
      ∧ xor 68 4 = 64 ∧ (64 : ℕ) ∉ [65, 66, 67] := by
  have hcol : columnify [68, 71] 1 = [[68, 71]] := by decide
  have hcand : findkeychars_column xor [65, 66, 67] [68, 71] = [4, 5, 6] := by decide
  have h1 : (findkeychars [68, 71] 1 [65, 66, 67] xor).getD 0 []
      = fitness_sort xor [68, 71] [4, 5, 6] := by
    unfold findkeychars
    rw [hcol, List.map_cons, List.map_nil, hcand]
    rfl
  refine ⟨?_, by decide, by decide, by decide⟩
  rw [h1]
  unfold fitness_sort
  rw [List.mem_reverse]
  exact (pysorted_perm _ _).mem_iff.mpr (by decide)

/-- Claim C3, the code evaluated at the failing input: with ciphertext
`[0]`, key length 1 and an empty charset, the column's candidate set is
empty, the key enumeration is empty, and the intended result of `findkey`
is `none`.  Under Python ≥ 3.7 the same call raises `RuntimeError` instead
of returning `None` (PEP 479; see claim C3's record). -/
theorem findkey_empty_product_eval :
    findkeychars [0] 1 [] xor = [[]]
      ∧ findkeys [0] 1 [] xor = []
      ∧ findkey [0] 1 [] xor = none := by
  refine ⟨by decide, by decide, by decide⟩

/-! ### CribDragSession: `cribdrag` -/

/-- The session state of `cribdrag` (xortools.py lines 389–393): the
accumulated key (`none` = unknown slot), the current crib and its index. -/
structure CribSession where
  key : List (Option ℕ)
  crib : List ℕ
  cribindex : ℕ
deriving DecidableEq

/-- The `getkey` helper of `cribdrag` (lines 339–345): the key bytes implied
by the crib at `cribindex`, every other slot unknown.  The ciphertext read
`ciphertext[cribindex + i]` is in range in every reachable session state
(the session keeps `cribindex ≤ len(ciphertext) - len(crib)`). -/
def getkey (ct : List ℕ) (keylen : ℕ) (crib : List ℕ) (cribindex : ℕ)
    (keyfunc : ℕ → ℕ → ℕ) : List (Option ℕ) :=
  (List.range crib.length).foldl
    (fun key i =>
      key.set ((cribindex + i) % keylen)
        (some (keyfunc (ct.getD (cribindex + i) 0) (crib.getD i 0))))
    (List.replicate keylen none)

/-- The outcome of `ast.literal_eval` on the crib argument (lines 424–426):
a parse failure, a non-string value, or a string (as its bytes). -/
inductive CribArg
  | parseError
  | nonStr
  | strLit (s : List ℕ)
deriving DecidableEq

/-- The outcome of `int(argument)` in the jump command (line 465). -/
inductive JumpArg
  | parseError
  | intLit (i : ℤ)
deriving DecidableEq

/-- The outcome of `ast.literal_eval` on the key argument (lines 500–510). -/
inductive KeyArg
  | parseError
  | nonList
  | listLit (l : List (Option ℕ))
deriving DecidableEq

/-- One parsed command of the interactive loop: the first whitespace-
delimited token selects the command, the rest of the line is its argument,
already parsed by the safe literal parser where the source parses it. -/
inductive Command
  | help
  | cribCmd (a : CribArg)
  | next
  | prev
  | jump (a : JumpArg)
  | okCmd
  | keyCmd (a : KeyArg)
  | showCmd
  | reset
  | quit
  | unknown
deriving DecidableEq

/-- What one dispatch prints, one tag per branch of the source: the preview
and informational outputs, each recoverable error message, and `silent` for
a branch that prints nothing at all. -/
inductive Resp
  | helpText | preview | keyUpdated | decryptShown | resetMsg | silent
  | errCribParse | errCribNotString | errCribTooLong
  | errNeedCrib | errNextTooBig | errPrevAtZero
  | errJumpNegative | errJumpTooBig
  | errKeyParse | errKeyNotList | errKeyWrongLength
  | errUnrecognized
deriving DecidableEq

/-- Whether a response reports an error to the operator. -/
def Resp.isError : Resp → Bool
  | .errCribParse | .errCribNotString | .errCribTooLong
  | .errNeedCrib | .errNextTooBig | .errPrevAtZero
  | .errJumpNegative | .errJumpTooBig
  | .errKeyParse | .errKeyNotList | .errKeyWrongLength
  | .errUnrecognized => true
  | _ => false

/-- One dispatch of the `while` loop of `cribdrag` (xortools.py lines
402–529).  Each branch mirrors the source: the crib command checks the type
and the length bound; next/prev/jump first require a crib and then check
their bounds (computed over Python integers, hence the `ℤ` comparisons);
`ok` merges the crib-derived key bytes over the stored key and clears the
crib; `key` checks the length; `reset` clears everything.  In the jump
branch a `ValueError` from `int(argument)` reaches line 476, which is a bare
string expression — no `print_` call — so that branch produces `Resp.silent`. -/
def cribdrag_step (ct : List ℕ) (keylen : ℕ) (keyfunc : ℕ → ℕ → ℕ)
    (s : CribSession) : Command → CribSession × Resp
  | .help => (s, .helpText)
  | .cribCmd .parseError => (s, .errCribParse)
  | .cribCmd .nonStr => (s, .errCribNotString)
  | .cribCmd (.strLit t) =>
      if keylen < t.length then (s, .errCribTooLong)
      else ({ s with crib := t, cribindex := 0 }, .preview)
  | .next =>
      if s.crib = [] then (s, .errNeedCrib)
      else if (s.cribindex : ℤ) = (ct.length : ℤ) - (s.crib.length : ℤ) then (s, .errNextTooBig)
      else ({ s with cribindex := s.cribindex + 1 }, .preview)
  | .prev =>
      if s.crib = [] then (s, .errNeedCrib)
      else if s.cribindex = 0 then (s, .errPrevAtZero)
      else ({ s with cribindex := s.cribindex - 1 }, .preview)
  | .jump a =>
      if s.crib = [] then (s, .errNeedCrib)
      else
        match a with
        | .parseError => (s, .silent)
        | .intLit i =>
            if i < 0 then (s, .errJumpNegative)
            else if (ct.length : ℤ) - (s.crib.length : ℤ) < i then (s, .errJumpTooBig)
            else ({ s with cribindex := i.toNat }, .preview)
  | .okCmd =>
      let cribkey := getkey ct keylen s.crib s.cribindex keyfunc
      let newkey := (List.range keylen).map (fun i =>
        match cribkey.getD i none with
        | some v => some v
        | none => s.key.getD i none)
      ({ key := newkey, crib := [], cribindex := 0 }, .keyUpdated)
  | .keyCmd .parseError => (s, .errKeyParse)
  | .keyCmd .nonList => (s, .errKeyNotList)
  | .keyCmd (.listLit l) =>
      if l.length ≠ keylen then (s, .errKeyWrongLength)
      else ({ s with key := l }, .preview)
  | .showCmd => (s, .decryptShown)
  | .reset => ({ key := List.replicate keylen none, crib := [], cribindex := 0 }, .resetMsg)
  | .quit => (s, .silent)
  | .unknown => (s, .errUnrecognized)

/-- The interactive loop (lines 399–534): commands are dispatched until
(q)uit — checked before dispatch — and the final state is returned. -/
def cribdrag_run (ct : List ℕ) (keylen : ℕ) (keyfunc : ℕ → ℕ → ℕ) :
    CribSession → List Command → CribSession
  | s, [] => s
  | s, c :: rest =>
      match c with
      | .quit => s
      | c => cribdrag_run ct keylen keyfunc (cribdrag_step ct keylen keyfunc s c).1 rest

lemma getD_set {α : Type} (l : List α) (m j : ℕ) (a d : α) :
    (l.set m a).getD j d = if m = j ∧ j < l.length then a else l.getD j d := by
  rw [List.getD_eq_getElem?_getD, List.getD_eq_getElem?_getD, List.getElem?_set]
  by_cases h1 : m = j
  · subst h1
    by_cases h2 : m < l.length
    · simp [h2]
    · have h3 : l[m]? = none := List.getElem?_eq_none (by omega)
      simp [h2, h3]
  · simp [h1]

lemma getD_replicate_none (n j : ℕ) :
    (List.replicate n (none : Option ℕ)).getD j none = none := by
  rw [List.getD_eq_getElem?_getD, List.getElem?_replicate]
  split <;> rfl

lemma getD_map_range {α : Type} (n j : ℕ) (f : ℕ → α) (d : α) :
    ((List.range n).map f).getD j d = if j < n then f j else d := by
  rw [List.getD_eq_getElem?_getD, List.getElem?_map]
  by_cases h : j < n
  · rw [List.getElem?_range h]
    simp [h]
  · have h2 : (List.range n)[j]? = none := List.getElem?_eq_none (by simpa using h)
    simp [h2, h]

lemma mod_shift_inj (keylen c i1 i2 : ℕ) (h1 : i1 < keylen) (h2 : i2 < keylen)
    (he : (c + i1) % keylen = (c + i2) % keylen) : i1 = i2 := by
  have h3 : i1 % keylen = i2 % keylen := Nat.ModEq.add_left_cancel (Nat.ModEq.refl c) he
  rwa [Nat.mod_eq_of_lt h1, Nat.mod_eq_of_lt h2] at h3

lemma foldl_set_length {α : Type} (g : ℕ → ℕ) (h : ℕ → α) :
    ∀ (l : List ℕ) (acc : List α),
      (l.foldl (fun key i => key.set (g i) (h i)) acc).length = acc.length := by
  intro l
  induction l with
  | nil => intro acc; rfl
  | cons i l ih => intro acc; rw [List.foldl_cons, ih, List.length_set]

lemma foldl_range_set_getD (keylen cribindex : ℕ) (v : ℕ → ℕ) (hkl : 0 < keylen) :
    ∀ m, m ≤ keylen →
      (∀ i, i < m →
        ((List.range m).foldl
            (fun key i => key.set ((cribindex + i) % keylen) (some (v i)))
            (List.replicate keylen (none : Option ℕ))).getD ((cribindex + i) % keylen) none
          = some (v i))
      ∧ ∀ j, (∀ i, i < m → (cribindex + i) % keylen ≠ j) →
        ((List.range m).foldl
            (fun key i => key.set ((cribindex + i) % keylen) (some (v i)))
            (List.replicate keylen (none : Option ℕ))).getD j none = none := by
  intro m
  induction m with
  | zero =>
    intro _
    refine ⟨fun i hi => absurd hi (by omega), fun j _ => ?_⟩
    simp [getD_replicate_none]
  | succ m ih =>
    intro hm
    obtain ⟨ih1, ih2⟩ := ih (by omega)
    have hlen : ((List.range m).foldl
        (fun key i => key.set ((cribindex + i) % keylen) (some (v i)))
        (List.replicate keylen (none : Option ℕ))).length = keylen := by
      rw [foldl_set_length]
      exact List.length_replicate keylen none
    have hsplit : (List.range (m + 1)).foldl
        (fun key i => key.set ((cribindex + i) % keylen) (some (v i)))
        (List.replicate keylen (none : Option ℕ))
        = ((List.range m).foldl
            (fun key i => key.set ((cribindex + i) % keylen) (some (v i)))
            (List.replicate keylen (none : Option ℕ))).set ((cribindex + m) % keylen)
          (some (v m)) := by
      rw [List.range_succ, List.foldl_append]
      rfl
    constructor
    · intro i hi
      rw [hsplit, getD_set]
      rcases Nat.lt_or_ge i m with him | him
      · have hne : (cribindex + m) % keylen ≠ (cribindex + i) % keylen := by
          intro he
          have := mod_shift_inj keylen cribindex m i (by omega) (by omega) he
          omega
        rw [if_neg (fun h => hne h.1)]
        exact ih1 i him
      · have hieq : i = m := by omega
        subst hieq
        rw [if_pos ⟨rfl, by rw [hlen]; exact Nat.mod_lt _ hkl⟩]
    · intro j hj
      rw [hsplit, getD_set]
      rw [if_neg (fun h => hj m (by omega) h.1)]
      exact ih2 j (fun i hi => hj i (by omega))

lemma getkey_getD (ct : List ℕ) (keylen : ℕ) (crib : List ℕ) (cribindex : ℕ)
    (keyfunc : ℕ → ℕ → ℕ) (hkl : 0 < keylen) (hm : crib.length ≤ keylen) :
    (∀ i, i < crib.length →
        (getkey ct keylen crib cribindex keyfunc).getD ((cribindex + i) % keylen) none
          = some (keyfunc (ct.getD (cribindex + i) 0) (crib.getD i 0)))
      ∧ ∀ j, (∀ i, i < crib.length → (cribindex + i) % keylen ≠ j) →
        (getkey ct keylen crib cribindex keyfunc).getD j none = none :=
  foldl_range_set_getD keylen cribindex
    (fun i => keyfunc (ct.getD (cribindex + i) 0) (crib.getD i 0)) hkl crib.length hm

/-- Claim C7 — commit semantics of the cribdrag session: in any session
state with a crib of length `m ≤ keylen` at `cribindex` (and the crib within
the ciphertext, as every reachable state keeps it), the `ok` command
produces a state whose key has, for every offset `i < m`, slot
`(cribindex + i) % keylen` equal to `deriveKey(ciphertext[cribindex+i],
crib[i])`; every other slot keeps its prior value; and the crib is cleared
and its index reset to 0. -/
theorem cribdrag_commit (ct : List ℕ) (keylen : ℕ) (keyfunc : ℕ → ℕ → ℕ) (s : CribSession)
    (hkl : 0 < keylen) (hm : s.crib.length ≤ keylen)
    (hb : s.cribindex + s.crib.length ≤ ct.length) :
    (∀ i, i < s.crib.length →
        ((cribdrag_step ct keylen keyfunc s Command.okCmd).1.key).getD
            ((s.cribindex + i) % keylen) none
          = some (keyfunc (ct.getD (s.cribindex + i) 0) (s.crib.getD i 0)))
      ∧ (∀ j, j < keylen → (∀ i, i < s.crib.length → (s.cribindex + i) % keylen ≠ j) →
          ((cribdrag_step ct keylen keyfunc s Command.okCmd).1.key).getD j none
            = s.key.getD j none)
      ∧ (cribdrag_step ct keylen keyfunc s Command.okCmd).1.crib = []
      ∧ (cribdrag_step ct keylen keyfunc s Command.okCmd).1.cribindex = 0 := by
  obtain ⟨hk1, hk2⟩ := getkey_getD ct keylen s.crib s.cribindex keyfunc hkl hm
  refine ⟨?_, ?_, rfl, rfl⟩
  · intro i hi
    show ((List.range keylen).map (fun i =>
        match (getkey ct keylen s.crib s.cribindex keyfunc).getD i none with
        | some v => some v
        | none => s.key.getD i none)).getD ((s.cribindex + i) % keylen) none
      = some (keyfunc (ct.getD (s.cribindex + i) 0) (s.crib.getD i 0))
    rw [getD_map_range, if_pos (Nat.mod_lt _ hkl), hk1 i hi]
  · intro j hj huntouched
    show ((List.range keylen).map (fun i =>
        match (getkey ct keylen s.crib s.cribindex keyfunc).getD i none with
        | some v => some v
        | none => s.key.getD i none)).getD j none
      = s.key.getD j none
    rw [getD_map_range, if_pos hj, hk2 j huntouched]

/-- Witness for claim C7 at a concrete session: ciphertext `[1, 2, 3]`, key
length 3, XOR combiner, key `[some 9, none, none]`, crib `[7, 8]` at index 1:
after `ok`, slot `(1 + 0) % 3` holds the derived byte. -/
theorem cribdrag_commit_witness :
    ((cribdrag_step [1, 2, 3] 3 xor ⟨[some 9, none, none], [7, 8], 1⟩ Command.okCmd).1.key).getD
        ((1 + 0) % 3) none
      = some (xor ([1, 2, 3].getD (1 + 0) 0) ([7, 8].getD 0 0)) :=
  (cribdrag_commit [1, 2, 3] 3 xor ⟨[some 9, none, none], [7, 8], 1⟩ (by decide) (by decide)
    (by decide)).1 0 (by decide)

/-- Claim C8 fails on the code (code bug) in exactly one branch: a `jump`
command whose argument fails `int(...)` leaves the state unchanged and the
session running — but prints nothing, because line 476 of the source is a
bare string expression (the intended error message, with an unfilled `{}`
placeholder) that is never passed to `print_`.  Every other precondition
violation reports its error.  This theorem evaluates the step at such a
command: the state is unchanged, the response is `silent` (not an error
report), and the following command still executes (the session continues,
terminated only by quit). -/
theorem cribdrag_jump_parse_error_eval :
    cribdrag_step [1, 2, 3] 3 xor ⟨[none, none, none], [5], 1⟩ (Command.jump JumpArg.parseError)
        = (⟨[none, none, none], [5], 1⟩, Resp.silent)
      ∧ Resp.silent.isError = false
      ∧ cribdrag_run [1, 2, 3] 3 xor ⟨[none, none, none], [5], 1⟩
          [Command.jump JumpArg.parseError, Command.reset, Command.quit]
        = ⟨[none, none, none], [], 0⟩ := by
  refine ⟨by decide, by decide, by decide⟩

/-! ### EmbeddedKeyRecovery: `keyinplaintext` -/

/-- The faults `keyinplaintext` can raise: `ZeroDivisionError` at
`keyindex % keylen` when `keylen = 0`; the explicit `ValueError` when
`keyindex % keylen == 0` (line 554); `IndexError` on an out-of-range
ciphertext access; `AssertionError` from `assert None not in key`
(line 572). -/
inductive KipError
  | zeroDivision
  | invalidConfiguration
  | indexError
  | incompleteKey
deriving DecidableEq

deriving instance DecidableEq for Except

/-- One pass of the propagation loop of `keyinplaintext` (lines 566–570):
`newkey = key[:]`, then for each `i` with `key[i]` known,
`newkey[(i + keyindex) % keylen] = decfunc(ciphertext[keyindex + i],
key[i])`.  Reads are from the unmodified `key`; an out-of-range ciphertext
access is an `IndexError`. -/
def kip_step (ct : List ℕ) (keylen keyindex : ℕ) (decfunc : ℕ → ℕ → ℕ)
    (key : List (Option ℕ)) : Except KipError (List (Option ℕ)) :=
  (List.range key.length).foldlM
    (fun newkey i =>
      match key.getD i none with
      | some v =>
          match ct[keyindex + i]? with
          | some c => Except.ok (newkey.set ((i + keyindex) % keylen) (some (decfunc c v)))
          | none => Except.error KipError.indexError
      | none => Except.ok newkey)
    key

/-- The write of one loop iteration, with the in-range ciphertext read. -/
def kip_write (ct : List ℕ) (keylen keyindex : ℕ) (decfunc : ℕ → ℕ → ℕ)
    (key : List (Option ℕ)) (newkey : List (Option ℕ)) (i : ℕ) : List (Option ℕ) :=
  match key.getD i none with
  | some v => newkey.set ((i + keyindex) % keylen) (some (decfunc (ct.getD (keyindex + i) 0) v))
  | none => newkey

/-- The value of one pass when every ciphertext access is in range
(`kip_step_eq_pure`). -/
def kip_step_pure (ct : List ℕ) (keylen keyindex : ℕ) (decfunc : ℕ → ℕ → ℕ)
    (key : List (Option ℕ)) : List (Option ℕ) :=
  (List.range key.length).foldl (kip_write ct keylen keyindex decfunc key) key

/-- The `for _ in range(keylen)` iteration of line 565. -/
def kip_iter (ct : List ℕ) (keylen keyindex : ℕ) (decfunc : ℕ → ℕ → ℕ) :
    ℕ → List (Option ℕ) → Except KipError (List (Option ℕ))
  | 0, key => Except.ok key
  | n + 1, key =>
      match kip_step ct keylen keyindex decfunc key with
      | Except.ok key2 => kip_iter ct keylen keyindex decfunc n key2
      | Except.error e => Except.error e

/-- The source's `keyinplaintext` (xortools.py lines 537–573), every fault
explicit.  The seed slot is `seedindex % keylen`, set from
`keyfunc(ciphertext[seedindex], seed)`; then `keylen` propagation passes;
then `assert None not in key` and the joined key. -/
def keyinplaintext (ct : List ℕ) (keylen keyindex : ℕ) (seed seedindex : ℕ)
    (decfunc keyfunc : ℕ → ℕ → ℕ) : Except KipError (List ℕ) :=
  if keylen = 0 then Except.error KipError.zeroDivision
  else if keyindex % keylen = 0 then Except.error KipError.invalidConfiguration
  else
    match ct[seedindex]? with
    | none => Except.error KipError.indexError
    | some c =>
        match kip_iter ct keylen keyindex decfunc keylen
            ((List.replicate keylen (none : Option ℕ)).set (seedindex % keylen)
              (some (keyfunc c seed))) with
        | Except.error e => Except.error e
        | Except.ok key =>
            if key.all Option.isSome then Except.ok key.reduceOption
            else Except.error KipError.incompleteKey

/-- Synthetic repeating-key encryption — the premise of claim C2: ciphertext
byte `i` is `enc(plain[i], key[i % len(key)])`. -/
def encryptRep (enc : ℕ → ℕ → ℕ) (plain key : List ℕ) : List ℕ :=
  (List.range plain.length).map (fun i => enc (plain.getD i 0) (key.getD (i % key.length) 0))

lemma foldlM_except_ok {E α β : Type} (f : β → α → Except E β) (g : β → α → β) :
    ∀ (l : List α) (b : β), (∀ b a, a ∈ l → f b a = Except.ok (g b a)) →
      l.foldlM f b = Except.ok (l.foldl g b) := by
  intro l
  induction l with
  | nil => intro b _; rfl
  | cons a l ih =>
    intro b h
    rw [List.foldlM_cons, h b a (List.mem_cons_self a l)]
    show l.foldlM f (g b a) = Except.ok ((a :: l).foldl g b)
    rw [List.foldl_cons]
    exact ih (g b a) (fun b' a' ha' => h b' a' (List.mem_cons_of_mem a ha'))

lemma kip_step_eq_pure (ct : List ℕ) (keylen keyindex : ℕ) (decfunc : ℕ → ℕ → ℕ)
    (key : List (Option ℕ)) (hacc : ∀ i, i < key.length → keyindex + i < ct.length) :
    kip_step ct keylen keyindex decfunc key
      = Except.ok (kip_step_pure ct keylen keyindex decfunc key) := by
  unfold kip_step kip_step_pure
  apply foldlM_except_ok
  intro b i hi
  rw [List.mem_range] at hi
  have hlt := hacc i hi
  unfold kip_write
  cases hk : key.getD i none with
  | none => rfl
  | some v =>
    rw [List.getElem?_eq_getElem hlt, List.getD_eq_getElem ct 0 hlt]

lemma foldl_kip_write_length (ct : List ℕ) (keylen keyindex : ℕ) (decfunc : ℕ → ℕ → ℕ)
    (key : List (Option ℕ)) :
    ∀ (l : List ℕ) (acc : List (Option ℕ)),
      (l.foldl (kip_write ct keylen keyindex decfunc key) acc).length = acc.length := by
  intro l
  induction l with
  | nil => intro acc; rfl
  | cons i l ih =>
    intro acc
    rw [List.foldl_cons, ih]
    unfold kip_write
    cases key.getD i none with
    | none => rfl
    | some v => rw [List.length_set]

lemma kip_step_pure_length (ct : List ℕ) (keylen keyindex : ℕ) (decfunc : ℕ → ℕ → ℕ)
    (key : List (Option ℕ)) :
    (kip_step_pure ct keylen keyindex decfunc key).length = key.length :=
  foldl_kip_write_length ct keylen keyindex decfunc key _ key

lemma foldl_kip_write_known (ct : List ℕ) (keylen keyindex : ℕ) (decfunc : ℕ → ℕ → ℕ)
    (key : List (Option ℕ)) :
    ∀ (l : List ℕ) (acc : List (Option ℕ)) (j : ℕ), acc.getD j none ≠ none →
      (l.foldl (kip_write ct keylen keyindex decfunc key) acc).getD j none ≠ none := by
  intro l
  induction l with
  | nil => intro acc j h; exact h
  | cons i l ih =>
    intro acc j h
    rw [List.foldl_cons]
    refine ih _ j ?_
    unfold kip_write
    cases key.getD i none with
    | none => exact h
    | some v =>
      rw [getD_set]
      split
      · simp
      · exact h

lemma foldl_kip_write_writes (ct : List ℕ) (keylen keyindex : ℕ) (decfunc : ℕ → ℕ → ℕ)
    (key : List (Option ℕ)) (hkl : 0 < keylen) :
    ∀ (l : List ℕ) (acc : List (Option ℕ)) (i : ℕ),
      i ∈ l → acc.length = keylen → key.getD i none ≠ none →
      (l.foldl (kip_write ct keylen keyindex decfunc key) acc).getD
          ((i + keyindex) % keylen) none ≠ none := by
  intro l
  induction l with
  | nil => intro acc i hi; simp at hi
  | cons a l ih =>
    intro acc i hi hlen hknown
    rw [List.foldl_cons]
    rcases List.mem_cons.mp hi with rfl | hi2
    · refine foldl_kip_write_known ct keylen keyindex decfunc key l _ _ ?_
      unfold kip_write
      cases hk : key.getD i none with
      | none => exact absurd hk hknown
      | some v =>
        rw [getD_set, if_pos ⟨rfl, by rw [hlen]; exact Nat.mod_lt _ hkl⟩]
        simp
    · refine ih _ i hi2 ?_ hknown
      unfold kip_write
      cases key.getD a none with
      | none => exact hlen
      | some v => rw [List.length_set]; exact hlen

/-- Partial-correctness predicate of the recovery: every slot is unknown or
holds the true key byte. -/
def kip_good (keylen : ℕ) (K : List ℕ) (x : List (Option ℕ)) : Prop :=
  x.length = keylen
    ∧ ∀ j, j < keylen → x.getD j none = none ∨ x.getD j none = some (K.getD j 0)

lemma foldl_kip_write_good (ct : List ℕ) (keylen keyindex : ℕ) (decfunc : ℕ → ℕ → ℕ)
    (key : List (Option ℕ)) (K : List ℕ)
    (hgoodkey : kip_good keylen K key)
    (henc : ∀ i, i < keylen →
      decfunc (ct.getD (keyindex + i) 0) (K.getD i 0) = K.getD ((i + keyindex) % keylen) 0) :
    ∀ (l : List ℕ), (∀ i ∈ l, i < keylen) → ∀ acc, kip_good keylen K acc →
      kip_good keylen K (l.foldl (kip_write ct keylen keyindex decfunc key) acc) := by
  intro l
  induction l with
  | nil => intro _ acc h; exact h
  | cons a l ih =>
    intro hl acc hacc
    rw [List.foldl_cons]
    refine ih (fun i hi => hl i (List.mem_cons_of_mem a hi)) _ ?_
    have ha : a < keylen := hl a (List.mem_cons_self a l)
    unfold kip_write
    cases hk : key.getD a none with
    | none => exact hacc
    | some v =>
      have hv : v = K.getD a 0 := by
        rcases hgoodkey.2 a ha with h0 | h0
        · rw [hk] at h0; exact absurd h0 (by simp)
        · rw [hk] at h0; exact Option.some.inj h0
      subst hv
      constructor
      · rw [List.length_set]; exact hacc.1
      · intro j hj
        rw [getD_set]
        by_cases hcase : (a + keyindex) % keylen = j ∧ j < acc.length
        · rw [if_pos hcase]
          right
          rw [henc a ha, hcase.1]
        · rw [if_neg hcase]
          exact hacc.2 j hj

lemma kip_iter_eq_pure (ct : List ℕ) (keylen keyindex : ℕ) (decfunc : ℕ → ℕ → ℕ)
    (hbound : keyindex + keylen ≤ ct.length) :
    ∀ (n : ℕ) (key : List (Option ℕ)), key.length = keylen →
      kip_iter ct keylen keyindex decfunc n key
        = Except.ok ((kip_step_pure ct keylen keyindex decfunc)^[n] key) := by
  intro n
  induction n with
  | zero => intro key _; rfl
  | succ n ih =>
    intro key hlen
    have hacc : ∀ i, i < key.length → keyindex + i < ct.length := by
      intro i hi; omega
    rw [kip_iter, kip_step_eq_pure ct keylen keyindex decfunc key hacc]
    show kip_iter ct keylen keyindex decfunc n (kip_step_pure ct keylen keyindex decfunc key)
      = Except.ok ((kip_step_pure ct keylen keyindex decfunc)^[n + 1] key)
    rw [ih (kip_step_pure ct keylen keyindex decfunc key)
      (by rw [kip_step_pure_length, hlen])]
    rw [Function.iterate_succ_apply]

lemma kip_iterate_length (ct : List ℕ) (keylen keyindex : ℕ) (decfunc : ℕ → ℕ → ℕ)
    (key : List (Option ℕ)) (hlen : key.length = keylen) :
    ∀ n, ((kip_step_pure ct keylen keyindex decfunc)^[n] key).length = keylen := by
  intro n
  induction n with
  | zero => simpa using hlen
  | succ n ih =>
    rw [Function.iterate_succ_apply']
    rw [kip_step_pure_length]
    exact ih

/-- Claim C10 — index safety of `keyinplaintext`: with the seed index inside
the ciphertext and `keyindex + keylen` within its length, no ciphertext
access is out of bounds (the result is never `indexError`), while a call
with `keyindex + keylen` beyond the ciphertext can fault with an index
error, witnessed at `ct = [7, 7]`, `keylen = 2`, `keyindex = 1`,
`seedindex = 1`. -/
theorem keyinplaintext_index_safety :
    (∀ (ct : List ℕ) (keylen keyindex seed seedindex : ℕ) (decfunc keyfunc : ℕ → ℕ → ℕ),
        0 < keylen → keyindex % keylen ≠ 0 →
        seedindex < ct.length → keyindex + keylen ≤ ct.length →
        keyinplaintext ct keylen keyindex seed seedindex decfunc keyfunc
          ≠ Except.error KipError.indexError)
      ∧ keyinplaintext [7, 7] 2 1 0 1 xor xor = Except.error KipError.indexError := by
  constructor
  · intro ct keylen keyindex seed seedindex decfunc keyfunc hkl hki hsd hbound
    unfold keyinplaintext
    rw [if_neg (by omega), if_neg hki]
    have hiter := kip_iter_eq_pure ct keylen keyindex decfunc hbound keylen
      ((List.replicate keylen (none : Option ℕ)).set (seedindex % keylen)
        (some (keyfunc ct[seedindex] seed)))
      (by rw [List.length_set, List.length_replicate])
    simp only [List.getElem?_eq_getElem hsd, hiter]
    split <;> simp
  · decide

lemma encryptRep_length (enc : ℕ → ℕ → ℕ) (plain key : List ℕ) :
    (encryptRep enc plain key).length = plain.length := by
  unfold encryptRep
  rw [List.length_map, List.length_range]

lemma encryptRep_getD (enc : ℕ → ℕ → ℕ) (plain key : List ℕ) (i : ℕ) (h : i < plain.length) :
    (encryptRep enc plain key).getD i 0
      = enc (plain.getD i 0) (key.getD (i % key.length) 0) := by
  unfold encryptRep
  rw [getD_map_range, if_pos h]

lemma exists_shift_mod (L keyindex s j : ℕ) (hL : 0 < L)
    (hgcd : Nat.gcd keyindex L = 1) (hj : j < L) :
    ∃ m, m < L ∧ (s + m * keyindex) % L = j := by
  haveI : NeZero L := ⟨Nat.pos_iff_ne_zero.mp hL⟩
  have hcop : Nat.Coprime keyindex L := hgcd
  refine ⟨(((j : ZMod L) - (s : ZMod L)) * ((ZMod.unitOfCoprime keyindex hcop)⁻¹ :
    (ZMod L)ˣ)).val, ZMod.val_lt _, ?_⟩
  set u : (ZMod L)ˣ := ZMod.unitOfCoprime keyindex hcop with hu
  set x : ZMod L := ((j : ZMod L) - (s : ZMod L)) * ((u⁻¹ : (ZMod L)ˣ) : ZMod L) with hx
  have hcast : ((s + x.val * keyindex : ℕ) : ZMod L) = (j : ZMod L) := by
    push_cast
    rw [ZMod.natCast_val, ZMod.cast_id]
    have hki : (keyindex : ZMod L) = (u : ZMod L) := (ZMod.coe_unitOfCoprime keyindex hcop).symm
    rw [hx, hki]
    have huu : ((u⁻¹ : (ZMod L)ˣ) : ZMod L) * ((u : (ZMod L)ˣ) : ZMod L) = 1 := u.inv_mul
    calc (s : ZMod L) + ((j : ZMod L) - (s : ZMod L)) * ((u⁻¹ : (ZMod L)ˣ) : ZMod L) * u
        = (s : ZMod L) + ((j : ZMod L) - (s : ZMod L))
          * (((u⁻¹ : (ZMod L)ˣ) : ZMod L) * ((u : (ZMod L)ˣ) : ZMod L)) := by ring
      _ = (j : ZMod L) := by rw [huu]; ring
  have hmod := (ZMod.natCast_eq_natCast_iff _ _ _).mp hcast
  unfold Nat.ModEq at hmod
  rwa [Nat.mod_eq_of_lt hj] at hmod

lemma getD_map_some (K : List ℕ) (j : ℕ) :
    (K.map some).getD j none = if j < K.length then some (K.getD j 0) else none := by
  rw [List.getD_eq_getElem?_getD, List.getElem?_map]
  by_cases h : j < K.length
  · rw [List.getElem?_eq_getElem h, if_pos h, List.getD_eq_getElem K 0 h]
    rfl
  · rw [List.getElem?_eq_none (by omega), if_neg h]
    rfl

lemma reduceOption_map_some (K : List ℕ) : (K.map some).reduceOption = K := by
  induction K with
  | nil => rfl
  | cons a K ih => rw [List.map_cons, List.reduceOption_cons_of_some, ih]

/-- Claim C2 — EmbeddedKeyRecovery correctness: if the plaintext contains
the key `K` (length `L > 0`) as a substring at offset `keyindex` with
`gcd(keyindex, L) = 1` and `keyindex % L ≠ 0`, the ciphertext is the
repeating-key encryption of that plaintext, the seed byte is the true
plaintext byte at `seedindex`, and the combiner satisfies
`deriveKey(enc(p, k), p) = k` and `decrypt(enc(p, k), p) = k` (both hold for
the self-inverse XOR default), then `keyinplaintext` terminates with every
slot known and returns exactly `K`. -/
theorem keyinplaintext_recovers (enc decfunc keyfunc : ℕ → ℕ → ℕ) (plain K : List ℕ)
    (keyindex seedindex : ℕ)
    (hL : 0 < K.length)
    (hgcd : Nat.gcd keyindex K.length = 1)
    (hki : keyindex % K.length ≠ 0)
    (hembed : keyindex + K.length ≤ plain.length)
    (hsub : ∀ i, i < K.length → plain.getD (keyindex + i) 0 = K.getD i 0)
    (hsd : seedindex < plain.length)
    (hdec : ∀ p k, decfunc (enc p k) p = k)
    (hkeyf : ∀ p k, keyfunc (enc p k) p = k) :
    keyinplaintext (encryptRep enc plain K) K.length keyindex
      (plain.getD seedindex 0) seedindex decfunc keyfunc = Except.ok K := by
  set L := K.length with hLdef
  set ct := encryptRep enc plain K with hct
  have hctlen : ct.length = plain.length := encryptRep_length enc plain K
  have hsd2 : seedindex < ct.length := by omega
  -- the ciphertext byte and seed value at the seed position
  have hseedbyte : ct.getD seedindex 0
      = enc (plain.getD seedindex 0) (K.getD (seedindex % L) 0) := by
    rw [hct, encryptRep_getD enc plain K seedindex hsd]
  -- the key byte each propagation write produces is the true byte
  have henc : ∀ i, i < L →
      decfunc (ct.getD (keyindex + i) 0) (K.getD i 0) = K.getD ((i + keyindex) % L) 0 := by
    intro i hi
    have h1 : keyindex + i < plain.length := by omega
    rw [hct, encryptRep_getD enc plain K (keyindex + i) h1, hsub i hi]
    rw [hdec]
    rw [Nat.add_comm keyindex i]
  -- the initial key
  set key0 : List (Option ℕ) := (List.replicate L (none : Option ℕ)).set (seedindex % L)
    (some (keyfunc (ct.getD seedindex 0) (plain.getD seedindex 0))) with hkey0
  have hkey0len : key0.length = L := by
    rw [hkey0, List.length_set, List.length_replicate]
  have hseedval : keyfunc (ct.getD seedindex 0) (plain.getD seedindex 0)
      = K.getD (seedindex % L) 0 := by
    rw [hseedbyte, hkeyf]
  have hkey0good : kip_good L K key0 := by
    refine ⟨hkey0len, fun j hj => ?_⟩
    rw [hkey0, getD_set]
    by_cases hc : seedindex % L = j ∧ j < (List.replicate L (none : Option ℕ)).length
    · rw [if_pos hc]
      right
      rw [hseedval, hc.1]
    · rw [if_neg hc]
      left
      exact getD_replicate_none L j
  have hkey0seed : key0.getD (seedindex % L) none ≠ none := by
    rw [hkey0, getD_set, if_pos ⟨rfl, by rw [List.length_replicate]; exact Nat.mod_lt _ hL⟩]
    simp
  set stepF := kip_step_pure ct L keyindex decfunc with hstepF
  have hbound : keyindex + L ≤ ct.length := by omega
  -- lengths along the iteration
  have hlen : ∀ n, (stepF^[n] key0).length = L :=
    kip_iterate_length ct L keyindex decfunc key0 hkey0len
  -- one pass preserves goodness, preserves known slots, and propagates them
  have hstep_good : ∀ x, kip_good L K x → kip_good L K (stepF x) := by
    intro x hx
    rw [hstepF]
    unfold kip_step_pure
    exact foldl_kip_write_good ct L keyindex decfunc x K hx henc (List.range x.length)
      (fun i hi => by rw [List.mem_range, hx.1] at hi; exact hi) x hx
  have hstep_known : ∀ x j, x.getD j none ≠ none → (stepF x).getD j none ≠ none := by
    intro x j h
    rw [hstepF]
    unfold kip_step_pure
    exact foldl_kip_write_known ct L keyindex decfunc x _ x j h
  have hstep_writes : ∀ x i, i < L → x.length = L → x.getD i none ≠ none →
      (stepF x).getD ((i + keyindex) % L) none ≠ none := by
    intro x i hi hlenx h
    rw [hstepF]
    unfold kip_step_pure
    exact foldl_kip_write_writes ct L keyindex decfunc x hL (List.range x.length) x i
      (by rw [List.mem_range, hlenx]; exact hi) hlenx h
  -- goodness along the iteration
  have hgood : ∀ n, kip_good L K (stepF^[n] key0) := by
    intro n
    induction n with
    | zero => simpa using hkey0good
    | succ n ih =>
      rw [Function.iterate_succ_apply']
      exact hstep_good _ ih
  -- known slots spread from the seed
  have hknown : ∀ t, ∀ m, m ≤ t →
      (stepF^[t] key0).getD ((seedindex + m * keyindex) % L) none ≠ none := by
    intro t
    induction t with
    | zero =>
      intro m hm
      have hm0 : m = 0 := by omega
      subst hm0
      simpa using hkey0seed
    | succ t ih =>
      intro m hm
      rw [Function.iterate_succ_apply']
      rcases Nat.lt_or_ge m (t + 1) with hmt | hmt
      · exact hstep_known _ _ (ih m (by omega))
      · have hmeq : m = t + 1 := by omega
        subst hmeq
        have hjt : (seedindex + t * keyindex) % L < L := Nat.mod_lt _ hL
        have h3 := hstep_writes (stepF^[t] key0) ((seedindex + t * keyindex) % L)
          hjt (hlen t) (ih t le_rfl)
        have h4 : ((seedindex + t * keyindex) % L + keyindex) % L
            = (seedindex + (t + 1) * keyindex) % L := by
          rw [Nat.mod_add_mod]
          congr 1
          ring
        rwa [h4] at h3
  -- at L iterations every slot is known and correct
  have hfinal : ∀ j, j < L → (stepF^[L] key0).getD j none = some (K.getD j 0) := by
    intro j hj
    obtain ⟨m, hm, hmj⟩ := exists_shift_mod L keyindex seedindex j hL hgcd hj
    have h1 := hknown L m (by omega)
    rw [hmj] at h1
    rcases (hgood L).2 j hj with h2 | h2
    · exact absurd h2 h1
    · exact h2
  have hkeyL : (stepF^[L] key0) = K.map some := by
    apply List.ext_get
    · rw [hlen L, List.length_map]
    · intro n h1 h2
      have hn : n < L := by rw [hlen L] at h1; exact h1
      have h3 := hfinal n hn
      rw [List.getD_eq_getElem _ none h1] at h3
      rw [List.get_eq_getElem, List.get_eq_getElem, h3, List.getElem_map]
      congr 1
      exact List.getD_eq_getElem K 0 (by simpa [hLdef] using hn)
  -- assemble the run of `keyinplaintext`
  have hc : ct[seedindex] = ct.getD seedindex 0 := (List.getD_eq_getElem ct 0 hsd2).symm
  have hall : (K.map some).all Option.isSome = true := by
    rw [List.all_eq_true]
    intro x hx
    rcases List.mem_map.mp hx with ⟨a, _, rfl⟩
    rfl
  have hiter2 : kip_iter ct L keyindex decfunc L
      ((List.replicate L (none : Option ℕ)).set (seedindex % L)
        (some (keyfunc ct[seedindex] (plain.getD seedindex 0))))
      = Except.ok (K.map some) := by
    have hkeyeq : ((List.replicate L (none : Option ℕ)).set (seedindex % L)
        (some (keyfunc ct[seedindex] (plain.getD seedindex 0)))) = key0 := by
      rw [hkey0, hc]
    rw [hkeyeq, kip_iter_eq_pure ct L keyindex decfunc hbound L key0 hkey0len, ← hstepF, hkeyL]
  unfold keyinplaintext
  rw [if_neg (by omega), if_neg hki]
  simp only [List.getElem?_eq_getElem hsd2, hiter2, hall, if_true, reduceOption_map_some]

/-- Witness for claim C2: key `K = [1, 2, 3]` embedded at offset 1 of the
plaintext `[10, 1, 2, 3]`, seed byte `plain[0] = 10`, XOR combiner. -/
theorem keyinplaintext_recovers_witness :
    keyinplaintext (encryptRep xor [10, 1, 2, 3] [1, 2, 3]) ([1, 2, 3] : List ℕ).length 1
      (([10, 1, 2, 3] : List ℕ).getD 0 0) 0 xor xor = Except.ok [1, 2, 3] :=
  keyinplaintext_recovers xor xor xor [10, 1, 2, 3] [1, 2, 3] 1 0
    (by decide) (by decide) (by decide) (by decide) (by decide) (by decide)
    (fun p k => by show ((p ^^^ k) ^^^ p) = k; rw [Nat.xor_comm p k]; exact Nat.xor_cancel_right p k)
    (fun p k => by show ((p ^^^ k) ^^^ p) = k; rw [Nat.xor_comm p k]; exact Nat.xor_cancel_right p k)

/-- Witness for claim C10 (the universally quantified half applied at a
concrete in-bounds call). -/
theorem keyinplaintext_index_safety_witness :
    keyinplaintext [1, 2, 3] 2 1 0 0 xor xor ≠ Except.error KipError.indexError :=
  keyinplaintext_index_safety.1 [1, 2, 3] 2 1 0 0 xor xor
    (by decide) (by decide) (by decide) (by decide)

end Xortools
